import Mathlib

/-!
Verification of the caption pipeline in `vast_transcriber.py`.

Python strings are modelled as `List Char`, Python floats (used only for
timestamps, where the program does exact arithmetic on them) as `ℚ`, and
fallible external collaborators (yt_dlp, whisper, the filesystem) as an
explicit environment record consumed by the orchestrator model.
-/

namespace VastTranscriber

/-- Python `str.strip()` whitespace test (models the ASCII whitespace class). -/
def isWs (c : Char) : Bool := c.isWhitespace

/-- Python `str.strip()`: remove leading and trailing whitespace. -/
def strip (s : List Char) : List Char :=
  ((s.dropWhile isWs).reverse.dropWhile isWs).reverse

/-- Python `s.endswith((c1, c2, ...))` for one-character suffixes:
the last character of `s` is one of `cs`. -/
def endsWithAny (s : List Char) (cs : List Char) : Bool :=
  match s.getLast? with
  | some c => cs.contains c
  | none => false

/-- In-place update of the last entry of a list
(Python `xs[-1] = v` / `xs[len(xs)-1] += ...`). -/
def setLast {α : Type} (ls : List α) (v : α) : List α := ls.dropLast ++ [v]

/-- Floor of a rational (`⌊q⌋`, spelled so that the kernel can evaluate it;
`Rat.floor_def` gives the equality with `Int.floor`). -/
def ratFloor (q : ℚ) : ℤ := q.num / q.den

/-- Ceiling of a rational (`⌈q⌉`). -/
def ratCeil (q : ℚ) : ℤ := -ratFloor (-q)

/-- Python `int(q)` on a float: truncation toward zero. -/
def pyInt (q : ℚ) : ℤ := if q < 0 then ratCeil q else ratFloor q

/-- Python float `a % b` (for the positive moduli used here). -/
def pyMod (a b : ℚ) : ℚ := a - b * (ratFloor (a / b) : ℚ)

/-- Python float `a // b`: floor division. -/
def pyFloorDiv (a b : ℚ) : ℚ := (ratFloor (a / b) : ℚ)

/-- Worker for `natToChars`; the fuel only forces structural recursion and
is always sufficient at the call site. -/
def natToCharsGo : Nat → Nat → List Char
  | 0, _ => []
  | fuel + 1, n =>
    if n < 10 then [Nat.digitChar n]
    else natToCharsGo fuel (n / 10) ++ [Nat.digitChar (n % 10)]

/-- Decimal digit string of a natural number (no sign, no padding). -/
def natToChars (n : Nat) : List Char := natToCharsGo (n + 1) n

/-- Left-pad with `'0'` up to width `w` (no-op when already at least that wide). -/
def pad0 (w : Nat) (s : List Char) : List Char :=
  List.replicate (w - s.length) '0' ++ s

/-- Python `f"{n:0Nd}"` for an integer: zero padding goes after the sign. -/
def pyPad (w : Nat) (n : ℤ) : List Char :=
  if n < 0 then '-' :: pad0 (w - 1) (natToChars n.natAbs)
  else pad0 w (natToChars n.toNat)

/-- `format_timestamp(seconds)` — source lines 11-16:
`h = int(seconds // 3600)`, `m = int((seconds % 3600) // 60)`,
`s = int(seconds % 60)`, `ms = int((seconds - int(seconds)) * 1000)`,
rendered as `f"{h:02}:{m:02}:{s:02}.{ms:03}"`. -/
def format_timestamp (seconds : ℚ) : List Char :=
  let h := pyInt (pyFloorDiv seconds 3600)
  let m := pyInt (pyFloorDiv (pyMod seconds 3600) 60)
  let s := pyInt (pyMod seconds 60)
  let ms := pyInt ((seconds - (pyInt seconds : ℚ)) * 1000)
  pyPad 2 h ++ ':' :: pyPad 2 m ++ ':' :: pyPad 2 s ++ '.' :: pyPad 3 ms

/-- One word token of the transcription engine's output
(Python dict with keys `word`, `start`, `end`). -/
structure WordToken where
  word : List Char
  start : ℚ
  «end» : ℚ
deriving DecidableEq

/-- One caption cue (Python dict with keys `start`, `end`, `lines`). -/
structure Caption where
  start : ℚ
  «end» : ℚ
  lines : List (List Char)
deriving DecidableEq

/-- The loop state of `build_dcmp_captions`
(source lines 53-59: `captions`, `current_lines`, `current_start`,
`current_end`, `force_new_block`, `force_new_line`). -/
structure SegState where
  captions : List Caption
  current_lines : List (List Char)
  current_start : ℚ
  current_end : ℚ
  force_new_block : Bool
  force_new_line : Bool
deriving DecidableEq

/-- The cue flushed from the current loop state
(`{"start": current_start, "end": current_end, "lines": current_lines}`). -/
def flushCue (st : SegState) : Caption :=
  ⟨st.current_start, st.current_end, st.current_lines⟩

/-- First section of the loop body (source lines 66-79): consume the
deferred `force_new_block` / `force_new_line` flags. In the
`force_new_line` overflow branch `current_end` is deliberately left
unchanged, exactly as in the source. -/
def consumeFlags (max_lines : Nat) (st : SegState) (w : WordToken) : SegState :=
  if st.force_new_block then
    { captions := st.captions ++ [flushCue st], current_lines := [[]],
      current_start := w.start, current_end := w.«end»,
      force_new_block := false, force_new_line := false }
  else if st.force_new_line then
    if st.current_lines.length < max_lines then
      { st with current_lines := st.current_lines ++ [[]], force_new_line := false }
    else
      { st with captions := st.captions ++ [flushCue st], current_lines := [[]],
                current_start := w.start, force_new_line := false }
  else st

/-- The separator before an appended word (source line 82): a space unless
the current line is empty. -/
def sepFor (cur : List Char) : List Char := if 0 < cur.length then [' '] else []

/-- Second section of the loop body (source lines 81-94): append the word to
the last line (`cur` in the source is `current_lines[line_idx]`, the last
line) if it fits, else open a new line if the cue has room, else flush
the cue and start a new one with the word as its first line. -/
def placeWord (max_chars max_lines : Nat) (st : SegState) (word : List Char)
    (w : WordToken) : SegState :=
  if (st.current_lines.getLastD []).length + (sepFor (st.current_lines.getLastD [])).length
      + word.length ≤ max_chars then
    { st with
      current_lines :=
        setLast st.current_lines
          ((st.current_lines.getLastD []) ++ sepFor (st.current_lines.getLastD []) ++ word),
      current_end := w.«end» }
  else if st.current_lines.length < max_lines then
    { st with current_lines := st.current_lines ++ [word], current_end := w.«end» }
  else
    { st with captions := st.captions ++ [flushCue st], current_lines := [word],
              current_start := w.start, current_end := w.«end» }

/-- Third section of the loop body (source lines 96-98): when the current
last line is over 15 characters, trailing sentence punctuation defers a
new cue and trailing clause punctuation defers a new line. -/
def setFlags (st : SegState) (word : List Char) : SegState :=
  if 15 < (st.current_lines.getLastD []).length then
    if endsWithAny word ['.', '?', '!'] then { st with force_new_block := true }
    else if endsWithAny word [',', ';', ':'] then { st with force_new_line := true }
    else st
  else st

/-- The whole loop body of `build_dcmp_captions` for one word
(`word = word_obj['word'].strip()`, source line 62). -/
def stepWord (max_chars max_lines : Nat) (st : SegState) (w : WordToken) : SegState :=
  setFlags (placeWord max_chars max_lines (consumeFlags max_lines st w) (strip w.word) w)
    (strip w.word)

/-- The greedy pass of `build_dcmp_captions` (source lines 52-100): the loop
over all words followed by the flush of the final in-progress cue. -/
def greedy_captions (word_segments : List WordToken) (max_chars max_lines : Nat) :
    List Caption :=
  match word_segments with
  | [] => []
  | w0 :: _ =>
    let init : SegState := ⟨[], [[]], w0.start, w0.«end», false, false⟩
    let fin := word_segments.foldl (stepWord max_chars max_lines) init
    fin.captions ++ [flushCue fin]

/-- The orphan-fix pass (source lines 102-108): when there are at least two
cues and the last cue's space-joined text is short enough, merge it into
the previous cue's last line and drop it. -/
def orphan_fix (max_chars : Nat) (captions : List Caption) : List Caption :=
  if 1 < captions.length then
    let lastC := captions.getLastD ⟨0, 0, []⟩
    let prevC := captions.dropLast.getLastD ⟨0, 0, []⟩
    let last_text := List.intercalate [' '] lastC.lines
    if last_text.length < 15 ∧
        (prevC.lines.getLastD []).length + last_text.length < max_chars + 15 then
      captions.dropLast.dropLast ++
        [{ prevC with
            lines := setLast prevC.lines ((prevC.lines.getLastD []) ++ ' ' :: last_text),
            «end» := lastC.«end» }]
    else captions
  else captions

/-- `build_dcmp_captions(word_segments, max_chars, max_lines)`
(source lines 51-109). -/
def build_dcmp_captions (word_segments : List WordToken)
    (max_chars : Nat := 32) (max_lines : Nat := 2) : List Caption :=
  match word_segments with
  | [] => []
  | _ :: _ => orphan_fix max_chars (greedy_captions word_segments max_chars max_lines)

/-- The fixed VTT header written first (source line 113). -/
def vtt_header : List Char := "WEBVTT\nKind: captions\nLanguage: en\n\n".toList

/-- `write_pro_vtt` (source lines 111-116), modelling the file contents as
the sequence of characters written: the header, then per cue a timing
line and the newline-joined text block followed by a blank line. -/
def write_pro_vtt (captions : List Caption) : List Char :=
  captions.foldl
    (fun acc c =>
      acc ++ (format_timestamp c.start ++ " --> ".toList ++ format_timestamp c.«end» ++ ['\n'])
          ++ (List.intercalate ['\n'] c.lines ++ ['\n', '\n']))
    vtt_header

/-! ## Whitespace tokenization (for the coverage property)

"Whitespace-normalized concatenation" is formalized by comparing the lists
of maximal non-whitespace runs (what Python's `str.split()` returns). -/

/-- Accumulator worker for `splitWs`: `acc` holds the reversed current run. -/
def splitWsGo : List Char → List Char → List (List Char)
  | [], acc => if acc.isEmpty then [] else [acc.reverse]
  | c :: cs, acc =>
    if isWs c then (if acc.isEmpty then [] else [acc.reverse]) ++ splitWsGo cs []
    else splitWsGo cs (c :: acc)

/-- Maximal non-whitespace runs of a character list, in order. -/
def splitWs (s : List Char) : List (List Char) := splitWsGo s []

/-- All whitespace tokens of a sequence of lines, in reading order. -/
def lineTokens (ls : List (List Char)) : List (List Char) := (ls.map splitWs).flatten

/-- All whitespace tokens of a cue sequence, in cue order and line order. -/
def capTokens (caps : List Caption) : List (List Char) :=
  (caps.map (fun c => lineTokens c.lines)).flatten

/-- All whitespace tokens held by a segmenter state: the flushed cues
followed by the cue under construction. -/
def stTokens (st : SegState) : List (List Char) :=
  capTokens st.captions ++ lineTokens st.current_lines

/-! ## Invariant predicates for the segmenter -/

/-- A line respects the character budget, or is a single trimmed input word
that alone exceeds it. -/
def LineOK (mc : Nat) (ws : List WordToken) (line : List Char) : Prop :=
  line.length ≤ mc ∨ ∃ w ∈ ws, line = strip w.word ∧ mc < line.length

/-- Every line of the state (flushed or in progress) satisfies `LineOK`. -/
def StateLinesOK (mc : Nat) (ws : List WordToken) (st : SegState) : Prop :=
  (∀ c ∈ st.captions, ∀ line ∈ c.lines, LineOK mc ws line) ∧
  ∀ line ∈ st.current_lines, LineOK mc ws line

/-- Flushed cues have sound timestamps: `start ≤ end` per cue, and the cue
start times followed by the current start form a non-decreasing list. -/
def WeakTimingOK (st : SegState) : Prop :=
  (∀ c ∈ st.captions, c.start ≤ c.«end») ∧
  List.Pairwise (· ≤ ·) (st.captions.map (·.start) ++ [st.current_start])

/-- `WeakTimingOK` plus soundness of the in-progress cue's interval. -/
def TimingOK (st : SegState) : Prop :=
  WeakTimingOK st ∧ st.current_start ≤ st.current_end

/-- Every cue of the state (flushed or in progress) has between 1 and
`ml` lines. -/
def LineCountOK (ml : Nat) (st : SegState) : Prop :=
  (∀ c ∈ st.captions, 1 ≤ c.lines.length ∧ c.lines.length ≤ ml) ∧
  1 ≤ st.current_lines.length ∧ st.current_lines.length ≤ ml

/-! ## Orchestrator model (`transcribe_video`, source lines 120-195)

The external collaborators — yt_dlp (`download_youtube_audio`), the
filesystem, the whisper engine, and the two output writes — are modelled by
an environment record; each fallible one is an `Option`/`Bool` describing
the single outcome it produces during one run. The run's observable
effects are the returned file list, the files successfully written, and
the paths passed to `os.remove`. -/

/-- Python `os.path.splitext(s)[0]`: the text before the final dot (a name
without a dot is unchanged; the leading-dot special case of `splitext`
does not matter for any claim and is not modelled). -/
def splitext_base (s : List Char) : List Char :=
  if s.contains '.' then ((s.reverse.dropWhile (fun c => c ≠ '.')).drop 1).reverse else s

/-- The transcription engine's result structure: full text plus, per
segment, the optional word-token list (`"words" in segment`). -/
structure EngineResult where
  text : List Char
  segments : List (Option (List WordToken))
deriving DecidableEq

/-- Flattening of all word tokens across segments, skipping segments
without word timing (source lines 177-179). -/
def all_words (r : EngineResult) : List WordToken :=
  (r.segments.filterMap id).flatten

/-- Outcomes of the external collaborators during one `transcribe_video`
run. `download = none` models `download_youtube_audio` swallowing any
network/extraction error and returning `None`; `engine = none` models the
model-load/transcribe call raising; the write flags model `IOFailure`
while emitting an output file. -/
structure Env where
  download : Option (List Char)
  path_exists : List Char → Bool
  engine : Option EngineResult
  txt_write_ok : Bool
  vtt_write_ok : Bool

/-- Observable effects of one `transcribe_video` run: the returned list of
generated files, the `(path, contents)` pairs successfully written, and
the paths passed to `os.remove` by the cleanup. -/
structure RunOutcome where
  result : List (List Char)
  written : List (List Char × List Char)
  removed : List (List Char)
deriving DecidableEq

/-- The `finally` block (source lines 192-195): best-effort removal of the
downloaded file only; removal errors are swallowed, so the modelled
effect is the `os.remove` call itself. -/
def cleanup (downloaded_file : Option (List Char)) : List (List Char) :=
  match downloaded_file with
  | some f => [f]
  | none => []

/-- `f"{base_name}.txt"` for `base_name = os.path.splitext(path)[0]`
(source lines 136 and 168). -/
def txt_path (local_file_path : List Char) : List Char :=
  splitext_base local_file_path ++ ".txt".toList

/-- `f"{base_name}.vtt"` (source line 176). -/
def vtt_path (local_file_path : List Char) : List Char :=
  splitext_base local_file_path ++ ".vtt".toList

/-- Source lines 136-190: everything inside the `try` once a local audio
path is fixed, composed with the `finally` cleanup. An engine failure or
a failed write is caught by the `except` and yields an empty result,
leaving any file already written in place. -/
def pipeline_body (env : Env) (local_file_path : List Char)
    (downloaded_file : Option (List Char)) (max_chars max_lines : Nat)
    (generate_vtt : Bool) : RunOutcome :=
  match env.engine with
  | none => ⟨[], [], cleanup downloaded_file⟩
  | some result =>
    if env.txt_write_ok then
      if generate_vtt then
        if env.vtt_write_ok then
          ⟨[txt_path local_file_path, vtt_path local_file_path],
           [(txt_path local_file_path, strip result.text),
            (vtt_path local_file_path,
              write_pro_vtt (build_dcmp_captions (all_words result) max_chars max_lines))],
           cleanup downloaded_file⟩
        else ⟨[], [(txt_path local_file_path, strip result.text)], cleanup downloaded_file⟩
      else ⟨[txt_path local_file_path], [(txt_path local_file_path, strip result.text)],
            cleanup downloaded_file⟩
    else ⟨[], [], cleanup downloaded_file⟩

/-- `transcribe_video` (source lines 120-195): acquisition dispatch on
`input_path.startswith("http")`, then the pipeline body. On acquisition
failure the function returns before anything is written or downloaded,
so there is truly no effect. -/
def transcribe_video (env : Env) (input_path : List Char)
    (max_chars max_lines : Nat) (generate_vtt : Bool) : RunOutcome :=
  if "http".toList.isPrefixOf input_path then
    match env.download with
    | none => ⟨[], [], []⟩
    | some downloaded =>
      pipeline_body env downloaded (some downloaded) max_chars max_lines generate_vtt
  else
    if env.path_exists input_path then
      pipeline_body env input_path none max_chars max_lines generate_vtt
    else ⟨[], [], []⟩

/-! ## General list lemmas -/

theorem dropLast_append_getLastD {α : Type} (l : List α) (d : α) (h : l ≠ []) :
    l.dropLast ++ [l.getLastD d] = l := by
  induction l with
  | nil => simp at h
  | cons x xs ih =>
    cases xs with
    | nil => simp
    | cons y ys => simpa using ih (by simp)

theorem mem_setLast {α : Type} {ls : List α} {v x : α} (h : x ∈ setLast ls v) :
    x ∈ ls ∨ x = v := by
  rcases List.mem_append.1 h with h' | h'
  · exact Or.inl ((List.dropLast_sublist ls).subset h')
  · exact Or.inr (List.mem_singleton.1 h')

theorem length_setLast {α : Type} (ls : List α) (v : α) (h : ls ≠ []) :
    (setLast ls v).length = ls.length := by
  have h0 : 0 < ls.length := List.length_pos.2 h
  simp [setLast, List.length_append, List.length_dropLast]
  omega

/-- A list of length at least two is its first part plus its last two
elements, expressed with `dropLast`/`getLastD` as the source's negative
indexing is modelled. -/
theorem two_split (caps : List Caption) (h : 1 < caps.length) :
    caps = caps.dropLast.dropLast ++
      [caps.dropLast.getLastD ⟨0, 0, []⟩, caps.getLastD ⟨0, 0, []⟩] := by
  have h0 : caps ≠ [] := by
    intro e; rw [e] at h; simp at h
  have h1 : caps.dropLast ≠ [] := by
    have := List.length_dropLast caps
    intro e
    rw [e] at this
    simp at this
    omega
  conv_lhs => rw [← dropLast_append_getLastD caps ⟨0, 0, []⟩ h0,
    ← dropLast_append_getLastD caps.dropLast ⟨0, 0, []⟩ h1]
  simp

/-! ## The orphan-fix pass -/

/-- Computation of `orphan_fix` on a sequence ending in cues `p`, `l`. -/
theorem orphan_fix_concat (mc : Nat) (init : List Caption) (p l : Caption) :
    orphan_fix mc (init ++ [p, l]) =
      if (List.intercalate [' '] l.lines).length < 15 ∧
          (p.lines.getLastD []).length + (List.intercalate [' '] l.lines).length < mc + 15 then
        init ++ [{ p with
          lines := setLast p.lines ((p.lines.getLastD []) ++ ' ' :: List.intercalate [' '] l.lines),
          «end» := l.«end» }]
      else init ++ [p, l] := by
  have e2 : init ++ [p, l] = (init ++ [p]) ++ [l] := by simp
  have h1 : (init ++ [p, l]).getLastD ⟨0, 0, []⟩ = l := by
    rw [e2, List.getLastD_concat]
  have h2 : (init ++ [p, l]).dropLast = init ++ [p] := by
    rw [e2, List.dropLast_concat]
  have h3 : (init ++ [p]).getLastD (⟨0, 0, []⟩ : Caption) = p := List.getLastD_concat _ _ _
  have h4 : (init ++ [p]).dropLast = init := List.dropLast_concat
  unfold orphan_fix
  rw [if_pos (by simp)]
  simp only [h1, h2, h3, h4]

/-- C3: if the greedy pass yields more than one cue (written as
`init ++ [p, l]`), the last cue's joined text is under 15 characters, and
appending it to the previous cue's last line would not exceed
`max_chars + 15`, then the orphan is merged into the previous cue — its
text appended to that cue's last line, the end time extended to the
orphan's end time, the orphan dropped; if either condition fails, or the
greedy pass yields at most one cue, the sequence is returned unchanged. -/
theorem orphan_correction (ws : List WordToken) (mc ml : Nat) :
    (∀ init p l, greedy_captions ws mc ml = init ++ [p, l] →
      (((List.intercalate [' '] l.lines).length < 15 ∧
          ((p.lines.getLastD []) ++ ' ' :: List.intercalate [' '] l.lines).length ≤ mc + 15) →
        build_dcmp_captions ws mc ml =
          init ++ [{ p with
            lines := setLast p.lines
              ((p.lines.getLastD []) ++ ' ' :: List.intercalate [' '] l.lines),
            «end» := l.«end» }]) ∧
      (¬((List.intercalate [' '] l.lines).length < 15 ∧
          ((p.lines.getLastD []) ++ ' ' :: List.intercalate [' '] l.lines).length ≤ mc + 15) →
        build_dcmp_captions ws mc ml = init ++ [p, l])) ∧
    ((greedy_captions ws mc ml).length ≤ 1 →
      build_dcmp_captions ws mc ml = greedy_captions ws mc ml) := by
  have hlen : ∀ p l : Caption, ((p.lines.getLastD []) ++ ' ' :: List.intercalate [' '] l.lines).length
      = (p.lines.getLastD []).length + (List.intercalate [' '] l.lines).length + 1 := by
    intro p l; simp [List.length_append]; omega
  constructor
  · intro init p l hg
    have hne : ws ≠ [] := by
      intro e
      rw [e] at hg
      simp [greedy_captions] at hg
    have hbuild : build_dcmp_captions ws mc ml = orphan_fix mc (greedy_captions ws mc ml) := by
      cases ws with
      | nil => exact absurd rfl hne
      | cons w rest => rfl
    rw [hbuild, hg, orphan_fix_concat]
    constructor
    · intro hcond
      rw [if_pos ⟨hcond.1, by rw [hlen] at hcond; omega⟩]
    · intro hcond
      rw [if_neg]
      intro ⟨c1, c2⟩
      exact hcond ⟨c1, by rw [hlen]; omega⟩
  · intro hle
    cases ws with
    | nil => rfl
    | cons w rest =>
      show orphan_fix mc (greedy_captions (w :: rest) mc ml) = _
      unfold orphan_fix
      rw [if_neg (by omega)]

/-- Witness for C3: a two-word input where the greedy pass leaves a short
trailing cue and the orphan pass merges it into the previous cue. -/
theorem orphan_correction_witness :
    build_dcmp_captions
      [⟨"aaaaaaaaaaaaaaaa.".toList, 0, 1⟩, ⟨"bye".toList, 1, 2⟩] 32 2 =
      [⟨0, 2, ["aaaaaaaaaaaaaaaa. bye".toList]⟩] := by
  have h := ((orphan_correction
      [⟨"aaaaaaaaaaaaaaaa.".toList, 0, 1⟩, ⟨"bye".toList, 1, 2⟩] 32 2).1
      [] ⟨0, 1, ["aaaaaaaaaaaaaaaa.".toList]⟩ ⟨1, 2, ["bye".toList]⟩ (by decide)).1 (by decide)
  exact h.trans (by decide)

/-! ## The serializer -/

/-- A fold that appends two blocks per element writes the concatenation of
all blocks after the initial contents. -/
theorem foldl_append_blocks {α β : Type} (k : α → List β) :
    ∀ (l : List α) (init : List β),
      l.foldl (fun acc c => acc ++ k c) init = init ++ (l.map k).flatten := by
  intro l
  induction l with
  | nil => intro init; simp
  | cons a t ih =>
    intro init
    simp only [List.foldl_cons, List.map_cons, List.flatten_cons, ih, List.append_assoc]

theorem foldl_two_append {α β : Type} (f g : α → List β) :
    ∀ (l : List α) (init : List β),
      l.foldl (fun acc c => acc ++ f c ++ g c) init =
        init ++ (l.map (fun c => f c ++ g c)).flatten := by
  intro l init
  have he : (fun (acc : List β) c => acc ++ f c ++ g c) =
      (fun (acc : List β) c => acc ++ (f c ++ g c)) := by
    funext acc c
    rw [List.append_assoc]
  rw [he, foldl_append_blocks]

/-- C6: the serializer's output is exactly the fixed header block followed,
for each cue in order, by its timing line, its text lines each on their
own line, and a blank line; the segmenter returns no cues on empty input,
for which the serializer therefore emits only the header block. -/
theorem vtt_serialization :
    (∀ captions : List Caption,
      write_pro_vtt captions =
        vtt_header ++
          (captions.map (fun c =>
            (format_timestamp c.start ++ " --> ".toList ++ format_timestamp c.«end» ++ ['\n']) ++
            (List.intercalate ['\n'] c.lines ++ ['\n', '\n']))).flatten) ∧
    vtt_header =
      "WEBVTT".toList ++ '\n' :: "Kind: captions".toList ++ '\n' ::
        "Language: en".toList ++ ['\n', '\n'] ∧
    (∀ mc ml : Nat, build_dcmp_captions [] mc ml = []) ∧
    write_pro_vtt [] = vtt_header := by
  refine ⟨fun captions => ?_, by rfl, fun mc ml => rfl, rfl⟩
  show List.foldl _ _ _ = _
  rw [foldl_two_append
    (fun c => format_timestamp c.start ++ " --> ".toList ++ format_timestamp c.«end» ++ ['\n'])
    (fun c => List.intercalate ['\n'] c.lines ++ ['\n', '\n']) captions vtt_header]

/-! ## The timestamp formatter -/

theorem natToCharsGo_of_lt_ten (fuel n : Nat) (hf : 0 < fuel) (h : n < 10) :
    natToCharsGo fuel n = [Nat.digitChar n] := by
  cases fuel with
  | zero => omega
  | succ f => simp [natToCharsGo, h]

theorem natToCharsGo_length_le_two (fuel n : Nat) (hf : 1 < fuel) (h : n < 100) :
    (natToCharsGo fuel n).length ≤ 2 := by
  cases fuel with
  | zero => omega
  | succ f =>
    by_cases hn : n < 10
    · simp [natToCharsGo, hn]
    · have h10 : n / 10 < 10 := by omega
      simp [natToCharsGo, hn, natToCharsGo_of_lt_ten f (n / 10) (by omega) h10]

theorem natToChars_length_le_two (n : Nat) (h : n < 100) : (natToChars n).length ≤ 2 := by
  by_cases hn : n < 10
  · rw [natToChars, natToCharsGo_of_lt_ten _ _ (by omega) hn]
    simp
  · exact natToCharsGo_length_le_two (n + 1) n (by omega) h

theorem natToCharsGo_length_le_three (fuel n : Nat) (hf : 2 < fuel) (h : n < 1000) :
    (natToCharsGo fuel n).length ≤ 3 := by
  cases fuel with
  | zero => omega
  | succ f =>
    by_cases hn : n < 10
    · simp [natToCharsGo, hn]
    · have h10 : n / 10 < 100 := by omega
      have := natToCharsGo_length_le_two f (n / 10) (by omega) h10
      simp [natToCharsGo, hn, List.length_append]
      omega

theorem natToChars_length_le_three (n : Nat) (h : n < 1000) : (natToChars n).length ≤ 3 := by
  by_cases hn : n < 100
  · have := natToChars_length_le_two n hn
    omega
  · exact natToCharsGo_length_le_three (n + 1) n (by omega) h

theorem pad0_length (w : Nat) (s : List Char) : (pad0 w s).length = max w s.length := by
  simp [pad0]
  omega

theorem pyPad_of_nonneg (w : Nat) (n : ℤ) (h : 0 ≤ n) :
    pyPad w n = pad0 w (natToChars n.toNat) := by
  unfold pyPad
  rw [if_neg (by omega)]

theorem ratFloor_eq (q : ℚ) : ratFloor q = ⌊q⌋ := by
  unfold ratFloor
  exact Rat.floor_def.symm

theorem ratCeil_eq (q : ℚ) : ratCeil q = ⌈q⌉ := by
  unfold ratCeil
  rw [ratFloor_eq, Int.floor_neg, neg_neg]

theorem pyInt_of_nonneg (q : ℚ) (h : 0 ≤ q) : pyInt q = ⌊q⌋ := by
  unfold pyInt
  rw [if_neg (not_lt.2 h), ratFloor_eq]

theorem pyInt_intCast (n : ℤ) : pyInt ((n : ℤ) : ℚ) = n := by
  unfold pyInt
  split
  · rw [ratCeil_eq, Int.ceil_intCast]
  · rw [ratFloor_eq, Int.floor_intCast]

theorem pyMod_eq (a b : ℚ) : pyMod a b = a - b * ((⌊a / b⌋ : ℤ) : ℚ) := by
  unfold pyMod
  rw [ratFloor_eq]

theorem pyMod_bounds (a b : ℚ) (hb : 0 < b) : 0 ≤ pyMod a b ∧ pyMod a b < b := by
  have hbne : b ≠ 0 := ne_of_gt hb
  have h1 : ((⌊a / b⌋ : ℤ) : ℚ) ≤ a / b := Int.floor_le _
  have h2 : a / b < ((⌊a / b⌋ : ℤ) : ℚ) + 1 := Int.lt_floor_add_one _
  have key : b * (a / b) = a := by
    rw [mul_comm]
    exact div_mul_cancel₀ a hbne
  have k1 := mul_le_mul_of_nonneg_left h1 hb.le
  have k2 := mul_lt_mul_of_pos_left h2 hb
  rw [key] at k1 k2
  rw [pyMod_eq]
  constructor
  · linarith
  · nlinarith

/-- C7: for every non-negative rational number of seconds the formatter
returns `HH:MM:SS.mmm` — hours, minutes, seconds zero-padded to (at
least) two digits, milliseconds to three, with minutes and seconds below
60 and milliseconds below 1000 so those fields are exactly their padded
width — and the two concrete examples from the specification hold. -/
theorem format_timestamp_clock (q : ℚ) (hq : 0 ≤ q) :
    (∃ hh mm ss mss : ℕ, mm < 60 ∧ ss < 60 ∧ mss < 1000 ∧
      format_timestamp q =
        pad0 2 (natToChars hh) ++ ':' :: pad0 2 (natToChars mm) ++ ':' ::
          pad0 2 (natToChars ss) ++ '.' :: pad0 3 (natToChars mss) ∧
      2 ≤ (pad0 2 (natToChars hh)).length ∧
      (pad0 2 (natToChars mm)).length = 2 ∧
      (pad0 2 (natToChars ss)).length = 2 ∧
      (pad0 3 (natToChars mss)).length = 3) ∧
    format_timestamp (3725.125 : ℚ) = "01:02:05.125".toList ∧
    format_timestamp (5 : ℚ) = "00:00:05.000".toList := by
  refine ⟨?_, ?_, ?_⟩
  case refine_2 =>
    norm_num [format_timestamp, pyFloorDiv, pyMod, pyInt, ratFloor_eq, ratCeil_eq]
    decide
  case refine_3 =>
    norm_num [format_timestamp, pyFloorDiv, pyMod, pyInt, ratFloor_eq, ratCeil_eq]
    decide
  have hm3600 := pyMod_bounds q 3600 (by norm_num)
  have hm60 := pyMod_bounds q 60 (by norm_num)
  -- the hour value
  have hH : pyInt (pyFloorDiv q 3600) = ⌊q / 3600⌋ := by
    rw [pyFloorDiv, pyInt_intCast, ratFloor_eq]
  have hH0 : 0 ≤ ⌊q / 3600⌋ := Int.floor_nonneg.2 (by positivity)
  -- the minute value
  have hM : pyInt (pyFloorDiv (pyMod q 3600) 60) = ⌊pyMod q 3600 / 60⌋ := by
    rw [pyFloorDiv, pyInt_intCast, ratFloor_eq]
  have hM0 : 0 ≤ ⌊pyMod q 3600 / 60⌋ :=
    Int.floor_nonneg.2 (div_nonneg hm3600.1 (by norm_num))
  have hMlt : ⌊pyMod q 3600 / 60⌋ < 60 := by
    rw [Int.floor_lt]
    rw [div_lt_iff₀ (by norm_num : (0:ℚ) < 60)]
    push_cast
    linarith [hm3600.2]
  -- the second value
  have hS : pyInt (pyMod q 60) = ⌊pyMod q 60⌋ := pyInt_of_nonneg _ hm60.1
  have hS0 : 0 ≤ ⌊pyMod q 60⌋ := Int.floor_nonneg.2 hm60.1
  have hSlt : ⌊pyMod q 60⌋ < 60 := by
    rw [Int.floor_lt]
    push_cast
    exact hm60.2
  -- the millisecond value
  have hQ : pyInt q = ⌊q⌋ := pyInt_of_nonneg _ hq
  have hfr0 : 0 ≤ q - ((⌊q⌋ : ℤ) : ℚ) := sub_nonneg.2 (Int.floor_le q)
  have hfr1 : q - ((⌊q⌋ : ℤ) : ℚ) < 1 := sub_lt_iff_lt_add.2 (by linarith [Int.lt_floor_add_one q])
  have hMS : pyInt ((q - ((pyInt q : ℤ) : ℚ)) * 1000) = ⌊(q - ((⌊q⌋ : ℤ) : ℚ)) * 1000⌋ := by
    rw [hQ]
    exact pyInt_of_nonneg _ (by positivity)
  have hMS0 : 0 ≤ ⌊(q - ((⌊q⌋ : ℤ) : ℚ)) * 1000⌋ := Int.floor_nonneg.2 (by positivity)
  have hMSlt : ⌊(q - ((⌊q⌋ : ℤ) : ℚ)) * 1000⌋ < 1000 := by
    rw [Int.floor_lt]
    push_cast
    nlinarith
  refine ⟨(⌊q / 3600⌋).toNat, (⌊pyMod q 3600 / 60⌋).toNat, (⌊pyMod q 60⌋).toNat,
    (⌊(q - ((⌊q⌋ : ℤ) : ℚ)) * 1000⌋).toNat, by omega, by omega, by omega, ?_, ?_, ?_, ?_, ?_⟩
  · show pyPad 2 (pyInt (pyFloorDiv q 3600)) ++ ':' ::
        pyPad 2 (pyInt (pyFloorDiv (pyMod q 3600) 60)) ++ ':' ::
        pyPad 2 (pyInt (pyMod q 60)) ++ '.' ::
        pyPad 3 (pyInt ((q - ((pyInt q : ℤ) : ℚ)) * 1000)) = _
    rw [hH, hM, hS, hMS, pyPad_of_nonneg 2 _ hH0, pyPad_of_nonneg 2 _ hM0,
      pyPad_of_nonneg 2 _ hS0, pyPad_of_nonneg 3 _ hMS0]
  · rw [pad0_length]
    omega
  · rw [pad0_length]
    have := natToChars_length_le_two (⌊pyMod q 3600 / 60⌋).toNat (by omega)
    omega
  · rw [pad0_length]
    have := natToChars_length_le_two (⌊pyMod q 60⌋).toNat (by omega)
    omega
  · rw [pad0_length]
    have := natToChars_length_le_three (⌊(q - ((⌊q⌋ : ℤ) : ℚ)) * 1000⌋).toNat (by omega)
    omega

/-- Witness for C7 at the two concrete inputs of the claim. -/
theorem format_timestamp_clock_witness :
    format_timestamp (3725.125 : ℚ) = "01:02:05.125".toList ∧
    format_timestamp (5 : ℚ) = "00:00:05.000".toList :=
  ⟨(format_timestamp_clock (3725.125 : ℚ) (by norm_num)).2.1,
   (format_timestamp_clock (5 : ℚ) (by norm_num)).2.2⟩

/-! ## Coverage of the input by the produced cues -/

theorem splitWs_nil : splitWs [] = [] := rfl

theorem splitWs_space_cons (t : List Char) : splitWs (' ' :: t) = splitWs t := rfl

theorem splitWsGo_append_ws (c : Char) (hc : isWs c = true) :
    ∀ (a b acc : List Char),
      splitWsGo (a ++ c :: b) acc = splitWsGo a acc ++ splitWsGo b [] := by
  intro a
  induction a with
  | nil =>
    intro b acc
    simp only [List.nil_append, splitWsGo, hc, if_true]
  | cons x t ih =>
    intro b acc
    show splitWsGo (x :: (t ++ c :: b)) acc = splitWsGo (x :: t) acc ++ splitWsGo b []
    simp only [splitWsGo]
    by_cases hx : isWs x = true
    · rw [if_pos hx, if_pos hx, ih, List.append_assoc]
    · rw [if_neg hx, if_neg hx, ih]

theorem splitWs_append_space (a b : List Char) :
    splitWs (a ++ ' ' :: b) = splitWs a ++ splitWs b :=
  splitWsGo_append_ws ' ' rfl a b []

theorem lineTokens_append (a b : List (List Char)) :
    lineTokens (a ++ b) = lineTokens a ++ lineTokens b := by
  simp [lineTokens]

theorem lineTokens_singleton (x : List Char) : lineTokens [x] = splitWs x := by
  simp [lineTokens]

theorem capTokens_append (a b : List Caption) :
    capTokens (a ++ b) = capTokens a ++ capTokens b := by
  simp [capTokens]

theorem capTokens_singleton (c : Caption) : capTokens [c] = lineTokens c.lines := by
  simp [capTokens]

/-- Placing a word on the last line (with the separator computed as in the
source) contributes exactly that word's tokens. -/
theorem lineTokens_place (ls : List (List Char)) (word : List Char) :
    lineTokens (setLast ls ((ls.getLastD []) ++ sepFor (ls.getLastD []) ++ word)) =
      lineTokens ls ++ splitWs word := by
  by_cases h : ls = []
  · subst h
    simp [setLast, lineTokens, sepFor]
  · have e := dropLast_append_getLastD ls [] h
    show lineTokens (ls.dropLast ++ [_]) = _
    rw [lineTokens_append, lineTokens_singleton]
    unfold sepFor
    by_cases hL : 0 < (ls.getLastD []).length
    · rw [if_pos hL]
      have hsw : (ls.getLastD []) ++ [' '] ++ word = (ls.getLastD []) ++ ' ' :: word := by simp
      rw [hsw, splitWs_append_space]
      conv_rhs => rw [← e, lineTokens_append, lineTokens_singleton]
      rw [List.append_assoc]
    · rw [if_neg hL]
      have hnil : ls.getLastD [] = [] := by
        cases hx : ls.getLastD [] with
        | nil => rfl
        | cons a t => rw [hx] at hL; simp at hL
      rw [hnil]
      conv_rhs => rw [← e, lineTokens_append, lineTokens_singleton, hnil]
      simp [lineTokens, splitWs_nil]

/-- The orphan merge (always separated by one space) contributes exactly
the merged text's tokens. -/
theorem lineTokens_merge (ls : List (List Char)) (t : List Char) :
    lineTokens (setLast ls ((ls.getLastD []) ++ ' ' :: t)) =
      lineTokens ls ++ splitWs t := by
  by_cases h : ls = []
  · subst h
    simp [setLast, lineTokens, splitWs_space_cons]
  · have e := dropLast_append_getLastD ls [] h
    show lineTokens (ls.dropLast ++ [_]) = _
    rw [lineTokens_append, lineTokens_singleton, splitWs_append_space]
    conv_rhs => rw [← e, lineTokens_append, lineTokens_singleton]
    rw [List.append_assoc]

/-- `" ".join(lines)` has exactly the tokens of the lines. -/
theorem splitWs_intercalate (ls : List (List Char)) :
    splitWs (List.intercalate [' '] ls) = lineTokens ls := by
  induction ls with
  | nil => rfl
  | cons x t ih =>
    cases t with
    | nil => simp [List.intercalate, lineTokens]
    | cons y u =>
      have hstep : List.intercalate [' '] (x :: y :: u) =
          x ++ ' ' :: List.intercalate [' '] (y :: u) := by
        simp [List.intercalate, List.intersperse_cons_cons]
      rw [hstep, splitWs_append_space, ih]
      simp [lineTokens]

theorem stTokens_consumeFlags (ml : Nat) (st : SegState) (w : WordToken) :
    stTokens (consumeFlags ml st w) = stTokens st := by
  unfold consumeFlags stTokens flushCue
  split
  · simp [capTokens_append, capTokens_singleton, lineTokens, splitWs_nil]
  · split
    · split
      · simp [lineTokens_append, lineTokens, splitWs_nil]
      · simp [capTokens_append, capTokens_singleton, lineTokens, splitWs_nil]
    · rfl

theorem stTokens_placeWord (mc ml : Nat) (st : SegState) (word : List Char)
    (w : WordToken) :
    stTokens (placeWord mc ml st word w) = stTokens st ++ splitWs word := by
  unfold placeWord stTokens flushCue
  split
  · show capTokens st.captions ++
        lineTokens (setLast st.current_lines
          ((st.current_lines.getLastD []) ++ sepFor (st.current_lines.getLastD []) ++ word)) = _
    rw [lineTokens_place, List.append_assoc]
  · split
    · simp [lineTokens_append, lineTokens_singleton, List.append_assoc]
    · simp [capTokens_append, capTokens_singleton, lineTokens_singleton, List.append_assoc]

theorem setFlags_fields (st : SegState) (word : List Char) :
    (setFlags st word).captions = st.captions ∧
    (setFlags st word).current_lines = st.current_lines ∧
    (setFlags st word).current_start = st.current_start ∧
    (setFlags st word).current_end = st.current_end := by
  unfold setFlags
  split
  · split
    · exact ⟨rfl, rfl, rfl, rfl⟩
    · split
      · exact ⟨rfl, rfl, rfl, rfl⟩
      · exact ⟨rfl, rfl, rfl, rfl⟩
  · exact ⟨rfl, rfl, rfl, rfl⟩

theorem stTokens_setFlags (st : SegState) (word : List Char) :
    stTokens (setFlags st word) = stTokens st := by
  have h := setFlags_fields st word
  unfold stTokens
  rw [h.1, h.2.1]

theorem stTokens_stepWord (mc ml : Nat) (st : SegState) (w : WordToken) :
    stTokens (stepWord mc ml st w) = stTokens st ++ splitWs (strip w.word) := by
  unfold stepWord
  rw [stTokens_setFlags, stTokens_placeWord, stTokens_consumeFlags]

theorem stTokens_foldl (mc ml : Nat) :
    ∀ (l : List WordToken) (st : SegState),
      stTokens (l.foldl (stepWord mc ml) st) =
        stTokens st ++ (l.map (fun w => splitWs (strip w.word))).flatten := by
  intro l
  induction l with
  | nil => intro st; simp
  | cons w t ih =>
    intro st
    simp only [List.foldl_cons, List.map_cons, List.flatten_cons, ih,
      stTokens_stepWord, List.append_assoc]

theorem greedy_capTokens (w0 : WordToken) (rest : List WordToken) (mc ml : Nat) :
    capTokens (greedy_captions (w0 :: rest) mc ml) =
      ((w0 :: rest).map (fun w => splitWs (strip w.word))).flatten := by
  show capTokens ((List.foldl (stepWord mc ml) ⟨[], [[]], w0.start, w0.«end», false, false⟩
      (w0 :: rest)).captions ++ [flushCue (List.foldl (stepWord mc ml)
      ⟨[], [[]], w0.start, w0.«end», false, false⟩ (w0 :: rest))]) = _
  rw [capTokens_append, capTokens_singleton]
  show stTokens (List.foldl (stepWord mc ml)
      ⟨[], [[]], w0.start, w0.«end», false, false⟩ (w0 :: rest)) = _
  rw [stTokens_foldl]
  rfl

theorem capTokens_orphan_fix (mc : Nat) (caps : List Caption) :
    capTokens (orphan_fix mc caps) = capTokens caps := by
  by_cases hlen : 1 < caps.length
  · conv_lhs => rw [two_split caps hlen]
    conv_rhs => rw [two_split caps hlen]
    rw [orphan_fix_concat]
    split
    · simp only [capTokens_append, capTokens_singleton]
      rw [lineTokens_merge, splitWs_intercalate]
      simp [capTokens, lineTokens, List.append_assoc]
    · rfl
  · unfold orphan_fix
    rw [if_neg hlen]

/-- C1: for every non-empty token sequence and every configuration, the
whitespace tokens of all produced cue lines, in cue order and line order,
are exactly the whitespace tokens of the trimmed input words, in input
order — nothing added, nothing dropped. -/
theorem coverage_exact (ws : List WordToken) (mc ml : Nat) (h : ws ≠ []) :
    capTokens (build_dcmp_captions ws mc ml) =
      (ws.map (fun w => splitWs (strip w.word))).flatten := by
  cases ws with
  | nil => exact absurd rfl h
  | cons w0 rest =>
    show capTokens (orphan_fix mc (greedy_captions (w0 :: rest) mc ml)) = _
    rw [capTokens_orphan_fix, greedy_capTokens]

/-- Witness for C1 on a concrete two-word input (with surrounding
whitespace on one of the words). -/
theorem coverage_exact_witness :
    ([(⟨" Hello ".toList, 0, 1⟩ : WordToken), ⟨"world.".toList, 1, 2⟩] ≠ []) ∧
    capTokens (build_dcmp_captions
        [⟨" Hello ".toList, 0, 1⟩, ⟨"world.".toList, 1, 2⟩] 32 2) =
      (([(⟨" Hello ".toList, 0, 1⟩ : WordToken), ⟨"world.".toList, 1, 2⟩]).map
        (fun w => splitWs (strip w.word))).flatten :=
  ⟨List.cons_ne_nil _ _,
   coverage_exact [⟨" Hello ".toList, 0, 1⟩, ⟨"world.".toList, 1, 2⟩] 32 2
     (List.cons_ne_nil _ _)⟩

/-! ## Cue line-count bounds -/

theorem exists_two_split (caps : List Caption) (h : 1 < caps.length) :
    ∃ dd p l, caps = dd ++ [p, l] := ⟨_, _, _, two_split caps h⟩

theorem lineCount_consumeFlags (ml : Nat) (st : SegState) (w : WordToken)
    (hml : 1 ≤ ml) (h : LineCountOK ml st) : LineCountOK ml (consumeFlags ml st w) := by
  obtain ⟨hc, hcur1, hcur2⟩ := h
  unfold consumeFlags
  split
  · refine ⟨?_, by simp, by simpa using hml⟩
    intro c hm
    rcases List.mem_append.1 hm with hm | hm
    · exact hc c hm
    · rw [List.mem_singleton.1 hm]
      exact ⟨hcur1, hcur2⟩
  · split
    · split
      · next hlt =>
        refine ⟨hc, ?_, ?_⟩ <;>
          simp only [List.length_append, List.length_cons, List.length_nil] <;> omega
      · refine ⟨?_, by simp, by simpa using hml⟩
        intro c hm
        rcases List.mem_append.1 hm with hm | hm
        · exact hc c hm
        · rw [List.mem_singleton.1 hm]
          exact ⟨hcur1, hcur2⟩
    · exact ⟨hc, hcur1, hcur2⟩

theorem lineCount_placeWord (mc ml : Nat) (st : SegState) (word : List Char)
    (w : WordToken) (hml : 1 ≤ ml) (h : LineCountOK ml st) :
    LineCountOK ml (placeWord mc ml st word w) := by
  obtain ⟨hc, hcur1, hcur2⟩ := h
  have hne : st.current_lines ≠ [] := by
    intro e
    rw [e] at hcur1
    simp at hcur1
  unfold placeWord
  split
  · refine ⟨hc, ?_, ?_⟩
    · simp [setLast]
    · rw [length_setLast _ _ hne]
      exact hcur2
  · split
    · next hlt =>
      refine ⟨hc, ?_, ?_⟩ <;>
        simp only [List.length_append, List.length_cons, List.length_nil] <;> omega
    · refine ⟨?_, by simp, by simpa using hml⟩
      intro c hm
      rcases List.mem_append.1 hm with hm | hm
      · exact hc c hm
      · rw [List.mem_singleton.1 hm]
        exact ⟨hcur1, hcur2⟩

theorem lineCount_setFlags (ml : Nat) (st : SegState) (word : List Char)
    (h : LineCountOK ml st) : LineCountOK ml (setFlags st word) := by
  have hf := setFlags_fields st word
  unfold LineCountOK at h ⊢
  rw [hf.1, hf.2.1]
  exact h

theorem lineCount_stepWord (mc ml : Nat) (st : SegState) (w : WordToken)
    (hml : 1 ≤ ml) (h : LineCountOK ml st) : LineCountOK ml (stepWord mc ml st w) :=
  lineCount_setFlags ml _ _
    (lineCount_placeWord mc ml _ _ w hml (lineCount_consumeFlags ml st w hml h))

theorem lineCount_foldl (mc ml : Nat) (hml : 1 ≤ ml) :
    ∀ (l : List WordToken) (st : SegState),
      LineCountOK ml st → LineCountOK ml (l.foldl (stepWord mc ml) st) := by
  intro l
  induction l with
  | nil => intro st h; exact h
  | cons w t ih =>
    intro st h
    exact ih _ (lineCount_stepWord mc ml st w hml h)

theorem greedy_lineCount (ws : List WordToken) (mc ml : Nat) (hml : 1 ≤ ml) :
    ∀ c ∈ greedy_captions ws mc ml, 1 ≤ c.lines.length ∧ c.lines.length ≤ ml := by
  cases ws with
  | nil => intro c hc; simp [greedy_captions] at hc
  | cons w0 rest =>
    have hfin := lineCount_foldl mc ml hml (w0 :: rest)
      ⟨[], [[]], w0.start, w0.«end», false, false⟩
      ⟨by intro c hc; simp at hc, by simp, by simpa using hml⟩
    obtain ⟨hc, hcur1, hcur2⟩ := hfin
    show ∀ c ∈ (List.foldl (stepWord mc ml)
        ⟨[], [[]], w0.start, w0.«end», false, false⟩ (w0 :: rest)).captions ++
        [flushCue (List.foldl (stepWord mc ml)
          ⟨[], [[]], w0.start, w0.«end», false, false⟩ (w0 :: rest))], _
    intro c hm
    rcases List.mem_append.1 hm with hm | hm
    · exact hc c hm
    · rw [List.mem_singleton.1 hm]
      exact ⟨hcur1, hcur2⟩

/-- C5: with `max_lines_per_cue ≥ 1`, every cue returned by
`build_dcmp_captions` has between 1 and `max_lines_per_cue` lines
inclusive, for every input and every `max_chars_per_line`. -/
theorem cue_line_count (ws : List WordToken) (mc ml : Nat) (hml : 1 ≤ ml) :
    ∀ c ∈ build_dcmp_captions ws mc ml, 1 ≤ c.lines.length ∧ c.lines.length ≤ ml := by
  cases ws with
  | nil => intro c hc; simp [build_dcmp_captions] at hc
  | cons w0 rest =>
    have hg := greedy_lineCount (w0 :: rest) mc ml hml
    show ∀ c ∈ orphan_fix mc (greedy_captions (w0 :: rest) mc ml), _
    by_cases hlen : 1 < (greedy_captions (w0 :: rest) mc ml).length
    · obtain ⟨dd, p, l, hdec⟩ := exists_two_split _ hlen
      rw [hdec] at hg ⊢
      rw [orphan_fix_concat]
      split
      · intro c hm
        rcases List.mem_append.1 hm with hm | hm
        · exact hg c (List.mem_append_left _ hm)
        · rw [List.mem_singleton.1 hm]
          have hp := hg p (List.mem_append_right _ (by simp))
          have hpne : p.lines ≠ [] := by
            intro e
            rw [e] at hp
            simp at hp
          refine ⟨?_, ?_⟩ <;> rw [length_setLast _ _ hpne] <;> [exact hp.1; exact hp.2]
      · exact hg
    · unfold orphan_fix
      rw [if_neg hlen]
      exact hg

/-- Witness for C5 on a concrete input and configuration. -/
theorem cue_line_count_witness :
    (1 ≤ 2) ∧
    ∀ c ∈ build_dcmp_captions
        [⟨"Hello".toList, 0, 1⟩, ⟨"world.".toList, 1, 2⟩] 32 2,
      1 ≤ c.lines.length ∧ c.lines.length ≤ 2 :=
  ⟨by decide,
   cue_line_count [⟨"Hello".toList, 0, 1⟩, ⟨"world.".toList, 1, 2⟩] 32 2 (by decide)⟩

/-! ## Line character budget -/

theorem LineOK_nil (mc : Nat) (ws : List WordToken) : LineOK mc ws [] :=
  Or.inl (by simp)

theorem linesOK_consumeFlags (mc ml : Nat) (ws : List WordToken) (st : SegState)
    (w : WordToken) (h : StateLinesOK mc ws st) :
    StateLinesOK mc ws (consumeFlags ml st w) := by
  obtain ⟨hc, hcur⟩ := h
  unfold consumeFlags
  split
  · refine ⟨?_, ?_⟩
    · intro c hm
      rcases List.mem_append.1 hm with hm | hm
      · exact hc c hm
      · rw [List.mem_singleton.1 hm]
        exact hcur
    · intro line hm
      rw [List.mem_singleton.1 hm]
      exact LineOK_nil mc ws
  · split
    · split
      · refine ⟨hc, ?_⟩
        intro line hm
        rcases List.mem_append.1 hm with hm | hm
        · exact hcur line hm
        · rw [List.mem_singleton.1 hm]
          exact LineOK_nil mc ws
      · refine ⟨?_, ?_⟩
        · intro c hm
          rcases List.mem_append.1 hm with hm | hm
          · exact hc c hm
          · rw [List.mem_singleton.1 hm]
            exact hcur
        · intro line hm
          rw [List.mem_singleton.1 hm]
          exact LineOK_nil mc ws
    · exact ⟨hc, hcur⟩

theorem linesOK_placeWord (mc ml : Nat) (ws : List WordToken) (st : SegState)
    (word : List Char) (w : WordToken) (hword : LineOK mc ws word)
    (h : StateLinesOK mc ws st) : StateLinesOK mc ws (placeWord mc ml st word w) := by
  obtain ⟨hc, hcur⟩ := h
  unfold placeWord
  split
  · next hfit =>
    refine ⟨hc, ?_⟩
    intro line hm
    rcases mem_setLast hm with hm | hm
    · exact hcur line hm
    · rw [hm]
      refine Or.inl ?_
      simp only [List.length_append]
      omega
  · split
    · refine ⟨hc, ?_⟩
      intro line hm
      rcases List.mem_append.1 hm with hm | hm
      · exact hcur line hm
      · rw [List.mem_singleton.1 hm]
        exact hword
    · refine ⟨?_, ?_⟩
      · intro c hm
        rcases List.mem_append.1 hm with hm | hm
        · exact hc c hm
        · rw [List.mem_singleton.1 hm]
          exact hcur
      · intro line hm
        rw [List.mem_singleton.1 hm]
        exact hword

theorem linesOK_setFlags (mc : Nat) (ws : List WordToken) (st : SegState)
    (word : List Char) (h : StateLinesOK mc ws st) :
    StateLinesOK mc ws (setFlags st word) := by
  have hf := setFlags_fields st word
  unfold StateLinesOK at h ⊢
  rw [hf.1, hf.2.1]
  exact h

theorem linesOK_stepWord (mc ml : Nat) (ws : List WordToken) (st : SegState)
    (w : WordToken) (hw : w ∈ ws) (h : StateLinesOK mc ws st) :
    StateLinesOK mc ws (stepWord mc ml st w) := by
  have hword : LineOK mc ws (strip w.word) := by
    by_cases hl : (strip w.word).length ≤ mc
    · exact Or.inl hl
    · exact Or.inr ⟨w, hw, rfl, by omega⟩
  exact linesOK_setFlags mc ws _ _
    (linesOK_placeWord mc ml ws _ _ w hword (linesOK_consumeFlags mc ml ws st w h))

theorem linesOK_foldl (mc ml : Nat) (ws : List WordToken) :
    ∀ (l : List WordToken) (st : SegState), (∀ x ∈ l, x ∈ ws) →
      StateLinesOK mc ws st → StateLinesOK mc ws (l.foldl (stepWord mc ml) st) := by
  intro l
  induction l with
  | nil => intro st _ h; exact h
  | cons w t ih =>
    intro st hsub h
    exact ih _ (fun x hx => hsub x (List.mem_cons_of_mem w hx))
      (linesOK_stepWord mc ml ws st w (hsub w (List.mem_cons_self w t)) h)

theorem greedy_linesOK (ws : List WordToken) (mc ml : Nat) :
    ∀ c ∈ greedy_captions ws mc ml, ∀ line ∈ c.lines, LineOK mc ws line := by
  cases ws with
  | nil => intro c hc; simp [greedy_captions] at hc
  | cons w0 rest =>
    have hfin := linesOK_foldl mc ml (w0 :: rest) (w0 :: rest)
      ⟨[], [[]], w0.start, w0.«end», false, false⟩ (fun x hx => hx)
      ⟨by intro c hc; simp at hc,
       by intro line hm; rw [List.mem_singleton.1 hm]; exact LineOK_nil mc (w0 :: rest)⟩
    obtain ⟨hc, hcur⟩ := hfin
    show ∀ c ∈ (List.foldl (stepWord mc ml)
        ⟨[], [[]], w0.start, w0.«end», false, false⟩ (w0 :: rest)).captions ++
        [flushCue (List.foldl (stepWord mc ml)
          ⟨[], [[]], w0.start, w0.«end», false, false⟩ (w0 :: rest))], _
    intro c hm
    rcases List.mem_append.1 hm with hm | hm
    · exact hc c hm
    · rw [List.mem_singleton.1 hm]
      exact hcur

/-- The orphan pass keeps every line's budget property, except that it may
extend the last line of the last cue to at most `max_chars + 15`. -/
theorem orphan_fix_linesOK (mc : Nat) (ws : List WordToken) (caps : List Caption)
    (h : ∀ c ∈ caps, ∀ line ∈ c.lines, LineOK mc ws line) :
    ∀ c ∈ orphan_fix mc caps, ∀ line ∈ c.lines,
      LineOK mc ws line ∨
      ((orphan_fix mc caps).getLast? = some c ∧ c.lines.getLast? = some line ∧
        line.length ≤ mc + 15) := by
  by_cases hlen : 1 < caps.length
  · obtain ⟨dd, p, l, hdec⟩ := exists_two_split caps hlen
    subst hdec
    rw [orphan_fix_concat]
    split
    · next hcond =>
      intro c hm
      rcases List.mem_append.1 hm with hm | hm
      · intro line hline
        exact Or.inl (h c (List.mem_append_left _ hm) line hline)
      · rw [List.mem_singleton.1 hm]
        intro line hline
        rcases mem_setLast hline with hm2 | hm2
        · exact Or.inl (h p (List.mem_append_right _ (by simp)) line hm2)
        · rw [hm2]
          refine Or.inr ⟨List.getLast?_concat _, List.getLast?_concat _, ?_⟩
          simp only [List.length_append, List.length_cons]
          omega
    · intro c hm line hline
      exact Or.inl (h c hm line hline)
  · unfold orphan_fix
    rw [if_neg hlen]
    intro c hm line hline
    exact Or.inl (h c hm line hline)

/-- C2 counterexample: with `max_chars = 32 ≥ 1` (and `max_lines = 1`),
the orphan merge produces a 35-character line that is not a single
over-long input word, so the claimed bound fails as stated. -/
theorem line_budget_cex :
    (1:Nat) ≤ 32 ∧
    ∃ c ∈ build_dcmp_captions
        [⟨List.replicate 32 'a', 0, 1⟩, ⟨"bb".toList, 1, 2⟩] 32 1,
      ∃ line ∈ c.lines, 32 < line.length ∧
        ¬∃ w ∈ [(⟨List.replicate 32 'a', 0, 1⟩ : WordToken), ⟨"bb".toList, 1, 2⟩],
          line = strip w.word := by decide

/-- C2 (amended): with `max_chars_per_line ≥ 1`, every line of every
returned cue is within the budget or is a single trimmed input word that
alone exceeds it — except possibly the last line of the last cue, which
the orphan merge may have extended, and which is bounded by
`max_chars_per_line + 15`. -/
theorem line_budget_amended (ws : List WordToken) (mc ml : Nat) (hmc : 1 ≤ mc) :
    ∀ c ∈ build_dcmp_captions ws mc ml, ∀ line ∈ c.lines,
      line.length ≤ mc ∨ (∃ w ∈ ws, line = strip w.word ∧ mc < line.length) ∨
      ((build_dcmp_captions ws mc ml).getLast? = some c ∧
        c.lines.getLast? = some line ∧ line.length ≤ mc + 15) := by
  cases ws with
  | nil => intro c hc; simp [build_dcmp_captions] at hc
  | cons w0 rest =>
    have hg := greedy_linesOK (w0 :: rest) mc ml
    have ho := orphan_fix_linesOK mc (w0 :: rest) (greedy_captions (w0 :: rest) mc ml) hg
    intro c hm line hline
    rcases ho c hm line hline with h1 | h2
    · rcases h1 with ha | hb
      · exact Or.inl ha
      · exact Or.inr (Or.inl hb)
    · exact Or.inr (Or.inr h2)

/-- Witness for C2 (amended) on a concrete input and configuration. -/
theorem line_budget_amended_witness :
    ((1:Nat) ≤ 32) ∧
    ∀ c ∈ build_dcmp_captions
        [⟨"Hi".toList, 0, 1⟩, ⟨"there.".toList, 1, 2⟩] 32 2,
      ∀ line ∈ c.lines,
        line.length ≤ 32 ∨
        (∃ w ∈ [(⟨"Hi".toList, 0, 1⟩ : WordToken), ⟨"there.".toList, 1, 2⟩],
          line = strip w.word ∧ 32 < line.length) ∨
        ((build_dcmp_captions
            [⟨"Hi".toList, 0, 1⟩, ⟨"there.".toList, 1, 2⟩] 32 2).getLast? = some c ∧
          c.lines.getLast? = some line ∧ line.length ≤ 32 + 15) :=
  ⟨by decide,
   line_budget_amended [⟨"Hi".toList, 0, 1⟩, ⟨"there.".toList, 1, 2⟩] 32 2 (by decide)⟩

/-! ## Timing soundness and monotonicity -/

theorem chain_le_of_le {a b : ℚ} {l : List ℚ} (hba : b ≤ a)
    (h : List.Chain (· ≤ ·) a l) : List.Chain (· ≤ ·) b l := by
  cases l with
  | nil => exact List.Chain.nil
  | cons x t =>
    rw [List.chain_cons] at h ⊢
    exact ⟨le_trans hba h.1, h.2⟩

theorem pairwise_snoc_le (l : List ℚ) (a b : ℚ)
    (h : List.Pairwise (· ≤ ·) (l ++ [a])) (hab : a ≤ b) :
    List.Pairwise (· ≤ ·) ((l ++ [a]) ++ [b]) := by
  rw [List.pairwise_append]
  refine ⟨h, List.pairwise_singleton _ _, ?_⟩
  intro x hx y hy
  rw [List.mem_singleton.1 hy]
  rcases List.mem_append.1 hx with hx | hx
  · have := (List.pairwise_append.1 h).2.2 x hx a (by simp)
    exact le_trans this hab
  · rw [List.mem_singleton.1 hx]
    exact hab

theorem timing_consumeFlags (ml : Nat) (st : SegState) (w : WordToken)
    (hml : 2 ≤ ml) (h : TimingOK st) (hcsw : st.current_start ≤ w.start)
    (hwse : w.start ≤ w.«end») :
    WeakTimingOK (consumeFlags ml st w) ∧
    (consumeFlags ml st w).current_start ≤ w.start ∧
    ((consumeFlags ml st w).current_start ≤ (consumeFlags ml st w).current_end ∨
      (consumeFlags ml st w).current_lines.length < ml) := by
  obtain ⟨⟨hcap, hpw⟩, hce⟩ := h
  unfold consumeFlags
  split
  · refine ⟨⟨?_, ?_⟩, le_refl _, Or.inl hwse⟩
    · intro c hm
      rcases List.mem_append.1 hm with hm | hm
      · exact hcap c hm
      · rw [List.mem_singleton.1 hm]
        exact hce
    · show List.Pairwise _ ((st.captions ++ [flushCue st]).map (·.start) ++ [w.start])
      rw [List.map_append]
      show List.Pairwise _ ((st.captions.map (·.start) ++ [st.current_start]) ++ [w.start])
      exact pairwise_snoc_le _ _ _ hpw hcsw
  · split
    · split
      · exact ⟨⟨hcap, hpw⟩, hcsw, Or.inl hce⟩
      · refine ⟨⟨?_, ?_⟩, le_refl _, Or.inr (by simpa using hml)⟩
        · intro c hm
          rcases List.mem_append.1 hm with hm | hm
          · exact hcap c hm
          · rw [List.mem_singleton.1 hm]
            exact hce
        · show List.Pairwise _ ((st.captions ++ [flushCue st]).map (·.start) ++ [w.start])
          rw [List.map_append]
          show List.Pairwise _ ((st.captions.map (·.start) ++ [st.current_start]) ++ [w.start])
          exact pairwise_snoc_le _ _ _ hpw hcsw
    · exact ⟨⟨hcap, hpw⟩, hcsw, Or.inl hce⟩

theorem timing_placeWord (mc ml : Nat) (st : SegState) (word : List Char)
    (w : WordToken) (h : WeakTimingOK st) (hcsw : st.current_start ≤ w.start)
    (hwse : w.start ≤ w.«end»)
    (hok : st.current_start ≤ st.current_end ∨ st.current_lines.length < ml) :
    TimingOK (placeWord mc ml st word w) := by
  obtain ⟨hcap, hpw⟩ := h
  unfold placeWord
  split
  · exact ⟨⟨hcap, hpw⟩, le_trans hcsw hwse⟩
  · split
    · exact ⟨⟨hcap, hpw⟩, le_trans hcsw hwse⟩
    · next hfit hroom =>
      have hce : st.current_start ≤ st.current_end := by
        rcases hok with hok | hok
        · exact hok
        · exact absurd hok hroom
      refine ⟨⟨?_, ?_⟩, hwse⟩
      · intro c hm
        rcases List.mem_append.1 hm with hm | hm
        · exact hcap c hm
        · rw [List.mem_singleton.1 hm]
          exact hce
      · show List.Pairwise _ ((st.captions ++ [flushCue st]).map (·.start) ++ [w.start])
        rw [List.map_append]
        show List.Pairwise _ ((st.captions.map (·.start) ++ [st.current_start]) ++ [w.start])
        exact pairwise_snoc_le _ _ _ hpw hcsw

theorem timing_setFlags (st : SegState) (word : List Char) (h : TimingOK st) :
    TimingOK (setFlags st word) := by
  have hf := setFlags_fields st word
  unfold TimingOK WeakTimingOK at h ⊢
  rw [hf.1, hf.2.2.1, hf.2.2.2]
  exact h

theorem timing_stepWord (mc ml : Nat) (st : SegState) (w : WordToken)
    (hml : 2 ≤ ml) (h : TimingOK st) (hcsw : st.current_start ≤ w.start)
    (hwse : w.start ≤ w.«end») : TimingOK (stepWord mc ml st w) := by
  obtain ⟨h1, h2, h3⟩ := timing_consumeFlags ml st w hml h hcsw hwse
  exact timing_setFlags _ _ (timing_placeWord mc ml _ _ w h1 h2 hwse h3)

theorem consumeFlags_current_start (ml : Nat) (st : SegState) (w : WordToken) :
    (consumeFlags ml st w).current_start = st.current_start ∨
    (consumeFlags ml st w).current_start = w.start := by
  unfold consumeFlags
  split
  · exact Or.inr rfl
  · split
    · split
      · exact Or.inl rfl
      · exact Or.inr rfl
    · exact Or.inl rfl

theorem placeWord_current_start (mc ml : Nat) (st : SegState) (word : List Char)
    (w : WordToken) :
    (placeWord mc ml st word w).current_start = st.current_start ∨
    (placeWord mc ml st word w).current_start = w.start := by
  unfold placeWord
  split
  · exact Or.inl rfl
  · split
    · exact Or.inl rfl
    · exact Or.inr rfl

theorem stepWord_current_start (mc ml : Nat) (st : SegState) (w : WordToken) :
    (stepWord mc ml st w).current_start = st.current_start ∨
    (stepWord mc ml st w).current_start = w.start := by
  unfold stepWord
  rw [(setFlags_fields _ _).2.2.1]
  rcases placeWord_current_start mc ml (consumeFlags ml st w) (strip w.word) w with
    he | he <;> rw [he]
  · exact consumeFlags_current_start ml st w
  · exact Or.inr rfl

theorem timing_foldl (mc ml : Nat) (hml : 2 ≤ ml) :
    ∀ (l : List WordToken) (st : SegState),
      (∀ x ∈ l, x.start ≤ x.«end») →
      List.Chain (· ≤ ·) st.current_start (l.map (·.start)) →
      TimingOK st → TimingOK (l.foldl (stepWord mc ml) st) := by
  intro l
  induction l with
  | nil => intro st _ _ h; exact h
  | cons w t ih =>
    intro st hse hchain h
    rw [List.map_cons, List.chain_cons] at hchain
    obtain ⟨hcw, hchain'⟩ := hchain
    refine ih _ (fun x hx => hse x (List.mem_cons_of_mem w hx)) ?_
      (timing_stepWord mc ml st w hml h hcw (hse w (List.mem_cons_self w t)))
    rcases stepWord_current_start mc ml st w with he | he <;> rw [he]
    · exact chain_le_of_le hcw hchain'
    · exact hchain'

theorem greedy_timing (ws : List WordToken) (mc ml : Nat) (hml : 2 ≤ ml)
    (hse : ∀ w ∈ ws, w.start ≤ w.«end»)
    (hsorted : List.Pairwise (· ≤ ·) (ws.map (·.start))) :
    (∀ c ∈ greedy_captions ws mc ml, c.start ≤ c.«end») ∧
    List.Pairwise (· ≤ ·) ((greedy_captions ws mc ml).map (·.start)) := by
  cases ws with
  | nil => exact ⟨by intro c hc; simp [greedy_captions] at hc, by simp [greedy_captions]⟩
  | cons w0 rest =>
    have hinit : TimingOK (⟨[], [[]], w0.start, w0.«end», false, false⟩ : SegState) :=
      ⟨⟨by intro c hc; simp at hc, by simpa using List.pairwise_singleton _ _⟩,
       hse w0 (List.mem_cons_self w0 rest)⟩
    have hchain : List.Chain (· ≤ ·) w0.start ((w0 :: rest).map (·.start)) := by
      rw [List.map_cons, List.chain_cons]
      exact ⟨le_refl _, List.chain_iff_pairwise.2 hsorted⟩
    have hfin := timing_foldl mc ml hml (w0 :: rest)
      ⟨[], [[]], w0.start, w0.«end», false, false⟩ hse hchain hinit
    obtain ⟨⟨hcap, hpw⟩, hce⟩ := hfin
    constructor
    · show ∀ c ∈ (List.foldl (stepWord mc ml)
          ⟨[], [[]], w0.start, w0.«end», false, false⟩ (w0 :: rest)).captions ++
          [flushCue (List.foldl (stepWord mc ml)
            ⟨[], [[]], w0.start, w0.«end», false, false⟩ (w0 :: rest))], _
      intro c hm
      rcases List.mem_append.1 hm with hm | hm
      · exact hcap c hm
      · rw [List.mem_singleton.1 hm]
        exact hce
    · show List.Pairwise _ (((List.foldl (stepWord mc ml)
          ⟨[], [[]], w0.start, w0.«end», false, false⟩ (w0 :: rest)).captions ++
          [flushCue (List.foldl (stepWord mc ml)
            ⟨[], [[]], w0.start, w0.«end», false, false⟩ (w0 :: rest))]).map (·.start))
      rw [List.map_append]
      exact hpw

theorem orphan_fix_timing (mc : Nat) (caps : List Caption)
    (h1 : ∀ c ∈ caps, c.start ≤ c.«end»)
    (h2 : List.Pairwise (· ≤ ·) (caps.map (·.start))) :
    (∀ c ∈ orphan_fix mc caps, c.start ≤ c.«end») ∧
    List.Pairwise (· ≤ ·) ((orphan_fix mc caps).map (·.start)) := by
  by_cases hlen : 1 < caps.length
  · obtain ⟨dd, p, l, hdec⟩ := exists_two_split caps hlen
    subst hdec
    rw [orphan_fix_concat]
    split
    · have hpl : p.start ≤ l.start := by
        have hmap : (dd ++ [p, l]).map (·.start) = dd.map (·.start) ++ [p.start, l.start] := by
          simp
        rw [hmap] at h2
        have := (List.pairwise_append.1 h2).2.1
        rw [List.pairwise_cons] at this
        exact this.1 l.start (List.mem_singleton_self _)
      have hl := h1 l (List.mem_append_right _ (by simp))
      have hmerged : p.start ≤ l.«end» := le_trans hpl hl
      constructor
      · intro c hm
        rcases List.mem_append.1 hm with hm | hm
        · exact h1 c (List.mem_append_left _ hm)
        · rw [List.mem_singleton.1 hm]
          exact hmerged
      · have h2' : List.Pairwise (· ≤ ·)
            (List.map (fun x : Caption => x.start) dd ++ [p.start, l.start]) := by
          have hmap : (dd ++ [p, l]).map (fun x : Caption => x.start) =
              List.map (fun x : Caption => x.start) dd ++ [p.start, l.start] := by simp
          rw [hmap] at h2
          exact h2
        rw [List.map_append]
        show List.Pairwise _ (List.map _ dd ++ [p.start])
        exact h2'.sublist (((List.nil_sublist [l.start]).cons₂ p.start).append_left _)
    · exact ⟨h1, h2⟩
  · unfold orphan_fix
    rw [if_neg hlen]
    exact ⟨h1, h2⟩

/-- C4 counterexample: two tokens with `start ≤ end` and non-decreasing
starts, with `max_lines = 1`, for which the deferred new-line flush
emits a cue whose start time exceeds its end time. -/
theorem timing_monotone_cex :
    (∀ w ∈ [(⟨"aaaaaaaaaaaaaaaaaa,".toList, 0, 1⟩ : WordToken),
        ⟨List.replicate 33 'b', 2, 3⟩], w.start ≤ w.«end») ∧
    List.Pairwise (· ≤ ·)
      (([(⟨"aaaaaaaaaaaaaaaaaa,".toList, 0, 1⟩ : WordToken),
        ⟨List.replicate 33 'b', 2, 3⟩]).map (·.start)) ∧
    ∃ c ∈ build_dcmp_captions
        [⟨"aaaaaaaaaaaaaaaaaa,".toList, 0, 1⟩, ⟨List.replicate 33 'b', 2, 3⟩] 32 1,
      c.«end» < c.start := by decide

/-- C4 (amended): additionally assuming `max_lines_per_cue ≥ 2` (the claim
fails for `max_lines_per_cue = 1`), every returned cue satisfies
`start ≤ end` and the cue start times are non-decreasing across the
returned sequence. -/
theorem timing_monotone_amended (ws : List WordToken) (mc ml : Nat) (hml : 2 ≤ ml)
    (hse : ∀ w ∈ ws, w.start ≤ w.«end»)
    (hsorted : List.Pairwise (· ≤ ·) (ws.map (·.start))) :
    (∀ c ∈ build_dcmp_captions ws mc ml, c.start ≤ c.«end») ∧
    List.Pairwise (· ≤ ·) ((build_dcmp_captions ws mc ml).map (·.start)) := by
  cases ws with
  | nil =>
    exact ⟨by intro c hc; simp [build_dcmp_captions] at hc, by simp [build_dcmp_captions]⟩
  | cons w0 rest =>
    have hg := greedy_timing (w0 :: rest) mc ml hml hse hsorted
    exact orphan_fix_timing mc (greedy_captions (w0 :: rest) mc ml) hg.1 hg.2

/-- Witness for C4 (amended) on a concrete input and configuration. -/
theorem timing_monotone_amended_witness :
    ((2:Nat) ≤ 2) ∧
    (∀ c ∈ build_dcmp_captions
        [⟨"Hello".toList, 0, 1⟩, ⟨"world.".toList, 1, 2⟩] 32 2, c.start ≤ c.«end») ∧
    List.Pairwise (· ≤ ·)
      ((build_dcmp_captions
        [⟨"Hello".toList, 0, 1⟩, ⟨"world.".toList, 1, 2⟩] 32 2).map (·.start)) :=
  ⟨by decide,
   timing_monotone_amended [⟨"Hello".toList, 0, 1⟩, ⟨"world.".toList, 1, 2⟩] 32 2
     (by decide) (by decide) (by decide)⟩

/-! ## The orchestrator: acquisition gate and cleanup -/

theorem splitext_base_mp3 (b : List Char) : splitext_base (b ++ ".mp3".toList) = b := by
  unfold splitext_base
  rw [if_pos (by simp)]
  rw [List.reverse_append]
  simp [List.dropWhile]

theorem pipeline_body_removed (env : Env) (f : List Char) (dl : Option (List Char))
    (mc ml : Nat) (gv : Bool) :
    (pipeline_body env f dl mc ml gv).removed = cleanup dl := by
  unfold pipeline_body
  split
  · rfl
  · split
    · split
      · split
        · rfl
        · rfl
      · rfl
    · rfl

theorem pipeline_body_written_paths (env : Env) (f : List Char)
    (dl : Option (List Char)) (mc ml : Nat) (gv : Bool) :
    ∀ pc ∈ (pipeline_body env f dl mc ml gv).written,
      pc.1 = txt_path f ∨ pc.1 = vtt_path f := by
  unfold pipeline_body
  split
  · intro pc h
    simp at h
  · split
    · split
      · split
        · intro pc h
          rcases List.mem_cons.1 h with h | h
          · rw [h]
            exact Or.inl rfl
          · rw [List.mem_singleton.1 h]
            exact Or.inr rfl
        · intro pc h
          rw [List.mem_singleton.1 h]
          exact Or.inl rfl
      · intro pc h
        rw [List.mem_singleton.1 h]
        exact Or.inl rfl
    · intro pc h
      simp at h

/-- C8: when acquisition fails — an `http` input whose download errors out,
or a local path that does not exist — `transcribe_video` returns the
empty file list having written and removed nothing; an existing local
path is passed on unchanged to the rest of the pipeline. -/
theorem acquisition_failure_spec (env : Env) (input : List Char) (mc ml : Nat)
    (gv : Bool) :
    ("http".toList.isPrefixOf input = true → env.download = none →
      transcribe_video env input mc ml gv = ⟨[], [], []⟩) ∧
    ("http".toList.isPrefixOf input = false → env.path_exists input = false →
      transcribe_video env input mc ml gv = ⟨[], [], []⟩) ∧
    ("http".toList.isPrefixOf input = false → env.path_exists input = true →
      transcribe_video env input mc ml gv = pipeline_body env input none mc ml gv) := by
  refine ⟨?_, ?_, ?_⟩
  · intro hp hd
    unfold transcribe_video
    rw [if_pos hp, hd]
  · intro hp hf
    unfold transcribe_video
    rw [if_neg (by rw [hp]; simp), if_neg (by simp [hf])]
  · intro hp hf
    unfold transcribe_video
    rw [if_neg (by rw [hp]; simp), if_pos hf]

/-- Witness for C8: an `http` input with a failing download yields the
empty outcome. -/
theorem acquisition_failure_spec_witness :
    transcribe_video ⟨none, fun _ => true, none, true, true⟩ "http://x".toList 32 2 true =
      ⟨[], [], []⟩ :=
  (acquisition_failure_spec ⟨none, fun _ => true, none, true, true⟩
    "http://x".toList 32 2 true).1 (by decide) rfl

/-- C9: on every exit path after acquisition — engine failure, write
failure, or success, with or without subtitle generation — the cleanup
removes exactly the downloaded audio file when one was downloaded
(deletion errors being swallowed, the modelled effect is the `os.remove`
call), never a caller-supplied local file, and never a file written by
the run (the download always carries an `.mp3` name, and the outputs are
the sibling `.txt`/`.vtt` names). -/
theorem cleanup_spec (env : Env) (input : List Char) (mc ml : Nat) (gv : Bool) :
    (∀ dl, "http".toList.isPrefixOf input = true → env.download = some dl →
      (transcribe_video env input mc ml gv).removed = [dl] ∧
      (∀ b, dl = b ++ ".mp3".toList →
        ∀ pc ∈ (transcribe_video env input mc ml gv).written, pc.1 ≠ dl)) ∧
    ("http".toList.isPrefixOf input = false →
      (transcribe_video env input mc ml gv).removed = []) ∧
    ("http".toList.isPrefixOf input = true → env.download = none →
      (transcribe_video env input mc ml gv).removed = []) := by
  refine ⟨?_, ?_, ?_⟩
  · intro dl hp hd
    have htv : transcribe_video env input mc ml gv =
        pipeline_body env dl (some dl) mc ml gv := by
      unfold transcribe_video
      rw [if_pos hp, hd]
    constructor
    · rw [htv, pipeline_body_removed]
      rfl
    · intro b hb pc hm heq
      rw [htv] at hm
      rcases pipeline_body_written_paths env dl (some dl) mc ml gv pc hm with hw | hw
      · rw [heq, hb] at hw
        unfold txt_path at hw
        rw [splitext_base_mp3] at hw
        exact absurd (List.append_cancel_left hw) (by decide)
      · rw [heq, hb] at hw
        unfold vtt_path at hw
        rw [splitext_base_mp3] at hw
        exact absurd (List.append_cancel_left hw) (by decide)
  · intro hp
    unfold transcribe_video
    rw [if_neg (by rw [hp]; simp)]
    split
    · rw [pipeline_body_removed]
      rfl
    · rfl
  · intro hp hd
    unfold transcribe_video
    rw [if_pos hp, hd]

/-- Witness for C9: a successful download followed by a successful run
removes exactly the downloaded `.mp3`, which is none of the written
files. -/
theorem cleanup_spec_witness :
    (transcribe_video
      ⟨some "video.mp3".toList, fun _ => true,
        some ⟨"hi".toList, [some [⟨"hi".toList, 0, 1⟩]]⟩, true, true⟩
      "http://x".toList 32 2 true).removed = ["video.mp3".toList] ∧
    ∀ pc ∈ (transcribe_video
      ⟨some "video.mp3".toList, fun _ => true,
        some ⟨"hi".toList, [some [⟨"hi".toList, 0, 1⟩]]⟩, true, true⟩
      "http://x".toList 32 2 true).written, pc.1 ≠ "video.mp3".toList := by
  have h := (cleanup_spec
    ⟨some "video.mp3".toList, fun _ => true,
      some ⟨"hi".toList, [some [⟨"hi".toList, 0, 1⟩]]⟩, true, true⟩
    "http://x".toList 32 2 true).1 "video.mp3".toList (by decide) rfl
  exact ⟨h.1, h.2 "video".toList (by decide)⟩

/-- C10: on a concrete input — a sentence-ending word filling more than 15
characters of its line, followed by a word longer than the 32-character
budget — the deferred new-cue flag leaves the fresh cue's initial empty
line in place and the over-long word becomes its second line, so the
returned cue contains an empty line and the serializer emits a blank
line inside that cue's text block. -/
theorem empty_line_cue :
    build_dcmp_captions
        [⟨"aaaaaaaaaaaaaaaa.".toList, 0, 1⟩, ⟨List.replicate 33 'b', 1, 2⟩] 32 2 =
      [⟨0, 1, ["aaaaaaaaaaaaaaaa.".toList]⟩, ⟨1, 2, [[], List.replicate 33 'b']⟩] ∧
    (∃ c ∈ build_dcmp_captions
        [⟨"aaaaaaaaaaaaaaaa.".toList, 0, 1⟩, ⟨List.replicate 33 'b', 1, 2⟩] 32 2,
      [] ∈ c.lines) ∧
    write_pro_vtt (build_dcmp_captions
        [⟨"aaaaaaaaaaaaaaaa.".toList, 0, 1⟩, ⟨List.replicate 33 'b', 1, 2⟩] 32 2) =
      ("WEBVTT\nKind: captions\nLanguage: en\n\n" ++
        "00:00:00.000 --> 00:00:01.000\naaaaaaaaaaaaaaaa.\n\n" ++
        "00:00:01.000 --> 00:00:02.000\n\n").toList ++
        List.replicate 33 'b' ++ "\n\n".toList := by
  refine ⟨by decide, by decide, ?_⟩
  with_unfolding_all decide

end VastTranscriber
